import Mathlib

/-!
Verification of the CodeGraph analyzer (`analyzer.py`) and graph builder
(`visualizer.py`).  The Python code is shallowly embedded: the Python `ast`
statement nodes that the analyzer inspects become the inductive `PyStmt`,
`ast.walk` becomes `walk` (breadth-first over a queue, as in CPython),
Python `set`s become insertion-ordered duplicate-free lists (`setAdd`),
Python `dict`s become association lists with `dictSet` (insertion order,
overwrite keeps the original position), and exceptions become `Except`
results.  `os.path.exists` is modelled by membership in an explicit list of
paths that exist on disk.
-/

namespace CodeGraph

/-! ## String helpers

`String.splitOn`, `String.endsWith` … from core are defined by well-founded
recursion on positions and do not reduce in the kernel, so the string
operations the Python code uses (`str.split`, `str.endswith`,
`os.path.basename`, `os.path.join`, `os.path.dirname`) are modelled directly
on the character list of the string. -/

/-- Split a character list at every occurrence of `c` (Python `str.split`):
`splitChar '.' "a.b"` gives `[['a'], ['b']]`, and the empty string gives one
empty part, exactly as `"".split('.') == ['']`. -/
def splitChar (c : Char) : List Char → List (List Char)
  | [] => [[]]
  | x :: xs =>
    match splitChar c xs with
    | [] => [[]]
    | h :: t => if x = c then [] :: h :: t else (x :: h) :: t

/-- Python `s.split('.')`, as a list of strings. -/
def splitDot (s : String) : List String :=
  (splitChar '.' s.data).map (fun l => String.mk l)

/-- Python `s.split('.')[0]`: the first dotted segment (total: the split of a
string is never empty). -/
def firstSeg (s : String) : String :=
  match splitDot s with
  | [] => ""
  | h :: _ => h

/-- Python `s.endswith(suffix)`. -/
def strEndsWith (s suffix : String) : Bool :=
  suffix.data.isSuffixOf s.data

/-- `os.path.join` for a relative second component. -/
def joinPath (a b : String) : String := a ++ "/" ++ b

/-- `os.path.basename`: the part after the last slash. -/
def basename (p : String) : String :=
  match (splitChar '/' p.data).reverse with
  | [] => ""
  | h :: _ => String.mk h

/-- Python `set.add` on a set modelled as an insertion-ordered list without
duplicates. -/
def setAdd (l : List String) (x : String) : List String :=
  if x ∈ l then l else l ++ [x]

/-! ## Python statements and `ast.walk` -/

mutual
/-- The statement forms of the Python AST that `analyzer.py` inspects.
`imp` is `ast.Import` (`import a.b, c`: one dotted name per alias),
`impFrom` is `ast.ImportFrom` (`from m import x, y`; `module` is `none` for
relative imports `from . import x`), `funcDef` is `ast.FunctionDef` (with
`lineno` and the positional argument names `args.args`), `classDef` is
`ast.ClassDef`, and `other` stands for any other statement together with the
statements nested inside it.  `PyBody` is a plain list of statements,
kept as a mutual inductive so that all recursions stay structural. -/
inductive PyStmt where
  | imp (names : List String)
  | impFrom (module : Option String) (names : List String)
  | funcDef (name : String) (lineno : Nat) (args : List String) (body : PyBody)
  | classDef (name : String) (body : PyBody)
  | other (body : PyBody)

inductive PyBody where
  | nil
  | cons (s : PyStmt) (rest : PyBody)
end

/-- A `PyBody` as an ordinary list of statements. -/
def PyBody.toList : PyBody → List PyStmt
  | .nil => []
  | .cons s rest => s :: rest.toList

/-- The child statements of a statement (the `body` fields `ast.walk`
descends into). -/
def PyStmt.body : PyStmt → List PyStmt
  | .funcDef _ _ _ b => b.toList
  | .classDef _ b => b.toList
  | .other b => b.toList
  | _ => []

mutual
-- Number of statement nodes in one statement's subtree / a statement list.
def PyStmt.size : PyStmt → Nat
  | .imp _ => 1
  | .impFrom _ _ => 1
  | .funcDef _ _ _ b => 1 + b.size
  | .classDef _ b => 1 + b.size
  | .other b => 1 + b.size

/-- Number of statement nodes in a statement list's subtrees. -/
def PyBody.size : PyBody → Nat
  | .nil => 0
  | .cons s rest => s.size + rest.size
end

/-- Number of statement nodes in a forest (used as fuel for the
breadth-first walk). -/
def stmtCount (l : List PyStmt) : Nat :=
  (l.map PyStmt.size).sum

/-- Breadth-first traversal of a statement queue with explicit fuel. -/
def walkFuel : Nat → List PyStmt → List PyStmt
  | 0, _ => []
  | _ + 1, [] => []
  | n + 1, s :: rest => s :: walkFuel n (rest ++ s.body)

/-- `ast.walk(tree)` restricted to statements: breadth-first order, every
node of the tree exactly once (`stmtCount` fuel is exactly the number of
steps the queue takes). -/
def walk (tree : List PyStmt) : List PyStmt :=
  walkFuel (stmtCount tree) tree

/-! ## The analysis result data model (`ProjectAnalyzer.dependencies`) -/

/-- One record of `_get_functions`: `{'name', 'lineno', 'args'}`. -/
structure FuncInfo where
  name : String
  lineno : Nat
  args : List String
deriving DecidableEq, Repr

/-- One method record of `_get_classes`: `{'name', 'args'}`. -/
structure MethodInfo where
  name : String
  args : List String
deriving DecidableEq, Repr

/-- One record of `_get_classes`: `{'name', 'methods'}`. -/
structure ClassInfo where
  name : String
  methods : List MethodInfo
deriving DecidableEq, Repr

/-- The per-file value stored in `self.dependencies[relative_path]`. -/
structure FileData where
  imports : List String
  imported_names : List String
  functions : List FuncInfo
  classes : List ClassInfo
deriving DecidableEq, Repr

/-- `self.dependencies`: a Python dict, modelled as an insertion-ordered
association list. -/
abbrev Dependencies := List (String × FileData)

/-- Python dict assignment `d[k] = v`: overwrites in place when the key is
present, appends otherwise. -/
def dictSet (d : Dependencies) (k : String) (v : FileData) : Dependencies :=
  if (List.any d (fun kv => kv.1 == k)) then
    List.map (fun kv => if kv.1 == k then (k, v) else kv) d
  else d ++ [(k, v)]

/-! ## Declaration extraction (`_get_functions`, `_get_classes`) -/

/-- `ProjectAnalyzer._get_functions`: every `FunctionDef` anywhere in the
walk, with name, line number and positional argument names. -/
def getFunctions (tree : List PyStmt) : List FuncInfo :=
  (walk tree).filterMap (fun s =>
    match s with
    | .funcDef n l a _ => some { name := n, lineno := l, args := a }
    | _ => none)

/-- The methods loop of `_get_classes`: `FunctionDef`s that are direct
children of the class body. -/
def methodsOf (body : PyBody) : List MethodInfo :=
  body.toList.filterMap (fun s =>
    match s with
    | .funcDef n _ a _ => some { name := n, args := a }
    | _ => none)

/-- `ProjectAnalyzer._get_classes`: every `ClassDef` anywhere in the walk,
with its direct-child methods. -/
def getClasses (tree : List PyStmt) : List ClassInfo :=
  (walk tree).filterMap (fun s =>
    match s with
    | .classDef n b => some { name := n, methods := methodsOf b }
    | _ => none)

/-! ## Import extraction (`_analyze_python_file`, lines 83-95) -/

/-- One step of the import-collection loop of `_analyze_python_file`, acting
on the accumulated pair `(imports, imported_names)`.
For `ast.Import`, each alias adds its first dotted segment to `imports` and
the full dotted name to `imported_names`.  For `ast.ImportFrom` with a
truthy `module` (`if node.module:` rejects `none` and the empty string), the
module's first segment is added to `imports` and `firstSeg module ++ "." ++
symbol` to `imported_names` for each alias. -/
def extractStep (acc : List String × List String) : PyStmt → List String × List String
  | .imp names =>
      names.foldl (fun acc nm => (setAdd acc.1 (firstSeg nm), setAdd acc.2 nm)) acc
  | .impFrom mo names =>
      match mo with
      | some m =>
          if m = "" then acc
          else
            let mn := firstSeg m
            names.foldl (fun acc nm => (acc.1, setAdd acc.2 (mn ++ "." ++ nm)))
              (setAdd acc.1 mn, acc.2)
      | none => acc
  | _ => acc

/-- The `(imports, imported_names)` pair collected by walking the tree. -/
def extractImports (tree : List PyStmt) : List String × List String :=
  (walk tree).foldl extractStep ([], [])

/-! ## The project on disk -/

/-- A file found by `os.walk` below the project root: `relDir` is its
directory relative to the root (`""` for the root itself), `name` its file
name, and `parsed` the outcome of opening and `ast.parse`-ing it (`none`
when reading or parsing raises, which `_analyze_python_file` catches). -/
structure DiskFile where
  relDir : String
  name : String
  parsed : Option (List PyStmt)

/-- The filesystem as the analyzer sees it: the root path, whether the root
exists, the files `os.walk` enumerates below it (in walk order), and the
set of paths for which `os.path.exists` answers true. -/
structure Project where
  rootPath : String
  rootExists : Bool
  files : List DiskFile
  diskPaths : List String

/-- The analyzer's configuration: `file_extensions` and `include_external`. -/
structure Config where
  fileExtensions : List String
  includeExternal : Bool

/-- `os.path.exists`. -/
def pathExists (p : Project) (path : String) : Bool :=
  decide (path ∈ p.diskPaths)

/-- The file's path relative to the project root (`os.path.relpath` of the
joined walk path, for a normalized tree). -/
def DiskFile.relPath (f : DiskFile) : String :=
  if f.relDir = "" then f.name else joinPath f.relDir f.name

/-- `os.path.dirname(file_path)`: the directory the file sits in. -/
def fileDir (p : Project) (f : DiskFile) : String :=
  if f.relDir = "" then p.rootPath else joinPath p.rootPath f.relDir

/-- The absolute path `os.path.join(root, file)` built by `_scan_directory`. -/
def filePath (p : Project) (f : DiskFile) : String :=
  joinPath (fileDir p f) f.name

/-- The extension filter of `_scan_directory`:
`any(file.endswith(ext) for ext in self.file_extensions)`. -/
def matchesExt (cfg : Config) (f : DiskFile) : Bool :=
  cfg.fileExtensions.any (fun ext => strEndsWith f.name ext)

/-- The files `_scan_directory` hands to `_analyze_file`: every walked file
whose name ends in a configured extension.  `os.walk` on a nonexistent root
yields nothing (and any exception the walk did raise would be caught and
only logged), so a nonexistent root scans to the empty list. -/
def scanFiles (p : Project) (cfg : Config) : List DiskFile :=
  if p.rootExists then p.files.filter (fun f => matchesExt cfg f) else []

/-! ## External-import filtering (`_analyze_python_file`, lines 97-112) -/

/-- The `possible_paths` existence check for one import name: the module is
kept as local when `{root}/{imp}.py`, `{root}/{imp}/__init__.py`, or
`{dirname(file_path)}/{imp}.py` exists. -/
def isLocal (p : Project) (fdir imp : String) : Bool :=
  pathExists p (joinPath p.rootPath (imp ++ ".py")) ||
  pathExists p (joinPath (joinPath p.rootPath imp) "__init__.py") ||
  pathExists p (joinPath fdir (imp ++ ".py"))

/-- One iteration of the `include_external == False` filtering loop: a
local import is added to `local_imports`, and the `imported_names` whose
first dotted segment equals it are united into `local_names`. -/
def filterStep (p : Project) (fdir : String) (importedNames : List String)
    (acc : List String × List String) (imp : String) : List String × List String :=
  if isLocal p fdir imp then
    (setAdd acc.1 imp,
     (importedNames.filter (fun n => firstSeg n == imp)).foldl setAdd acc.2)
  else acc

/-- The `include_external == False` filtering loop: rebuilds
`(local_imports, local_names)` keeping an import when some candidate path
exists, together with the `imported_names` whose first dotted segment is
that import. -/
def filterExternal (p : Project) (fdir : String)
    (imports importedNames : List String) : List String × List String :=
  imports.foldl (filterStep p fdir importedNames) ([], [])

/-- The `FileData` entry `_analyze_python_file` stores for a successfully
parsed tree. -/
def mkFileData (p : Project) (cfg : Config) (fdir : String)
    (tree : List PyStmt) : FileData :=
  let ex := extractImports tree
  let flt := if cfg.includeExternal then ex else filterExternal p fdir ex.1 ex.2
  { imports := flt.1
    imported_names := flt.2
    functions := getFunctions tree
    classes := getClasses tree }

/-! ## Per-file analysis and the full scan -/

/-- `_analyze_file` followed by `_analyze_python_file`: only paths ending in
`.py` are parsed; a read/parse failure is caught and logged, leaving the
dependency dict unchanged; otherwise the file's entry is stored under its
relative path. -/
def analyzeFile (p : Project) (cfg : Config) (deps : Dependencies)
    (f : DiskFile) : Dependencies :=
  if strEndsWith (filePath p f) ".py" then
    match f.parsed with
    | some tree => dictSet deps f.relPath (mkFileData p cfg (fileDir p f) tree)
    | none => deps
  else deps

/-- The dependency dict built by `analyze`: the scanned files folded through
`_analyze_file` starting from the empty dict. -/
def analyzeDeps (p : Project) (cfg : Config) : Dependencies :=
  (scanFiles p cfg).foldl (fun deps f => analyzeFile p cfg deps f) []

/-- `ProjectAnalyzer.analyze`: the `Except` result type records whether an
exception escapes to the caller.  `_scan_directory` wraps the whole walk in
`try/except` and only logs, so the analysis always returns normally. -/
def analyze (p : Project) (cfg : Config) : Except String Dependencies :=
  Except.ok (analyzeDeps p cfg)

/-! ## The graph built by `GraphVisualizer.create_graph`

The pyvis `Network` is modelled by its node list (ids with their `group`
attribute; `add_node` ignores an id that is already present) and its edge
list (`add_edge` always appends).  The remaining node/edge attributes
(label, color, shape, size, tooltip) carry no structure the claims speak
about; the `group` of a node and the import/contains role of an edge are
kept, the latter as `EdgeKind` (`importsModule` is the untitled blue edge of
the module-import loop, `importsSymbol` the blue edge titled with the
imported symbol, `contains` the attribute-less structural edge). -/

structure GNode where
  id : String
  group : String
deriving DecidableEq, Repr

inductive EdgeKind where
  | importsModule
  | importsSymbol (symbol : String)
  | contains
deriving DecidableEq, Repr

structure GEdge where
  src : String
  dst : String
  kind : EdgeKind
deriving DecidableEq, Repr

structure Graph where
  nodes : List GNode
  edges : List GEdge
deriving DecidableEq, Repr

/-- `Network.add_node`: a node whose id is already present is not added
again (the first addition wins). -/
def addNode (g : Graph) (id group : String) : Graph :=
  if g.nodes.any (fun n => n.id == id) then g
  else { g with nodes := g.nodes ++ [⟨id, group⟩] }

/-- `Network.add_edge`: appends. -/
def addEdge (g : Graph) (e : GEdge) : Graph :=
  { g with edges := g.edges ++ [e] }

/-- The basename search of `create_graph`: the first key of the dependency
dict (in insertion order) whose basename is `m + ".py"`. -/
def findTarget (deps : Dependencies) (m : String) : Option String :=
  (deps.map Prod.fst).find? (fun k => basename k == m ++ ".py")

/-- The module-import loop: one blue edge per import name whose basename
search succeeds; a miss adds nothing. -/
def moduleImportLoop (deps : Dependencies) (path : String) (g : Graph)
    (imports : List String) : Graph :=
  imports.foldl (fun g imp =>
    match findTarget deps imp with
    | some t => addEdge g ⟨path, t, .importsModule⟩
    | none => g) g

/-- The symbol-import loop: `module_name, item_name = imported_name.split('.')`
raises `ValueError` (aborting `create_graph`) unless the split has exactly
two parts; on a successful basename search a titled blue edge is added. -/
def symbolImportLoop (deps : Dependencies) (path : String) (g : Graph) :
    List String → Except String Graph
  | [] => .ok g
  | n :: rest =>
    match splitDot n with
    | [m, item] =>
        (match findTarget deps m with
         | some t => symbolImportLoop deps path (addEdge g ⟨path, t, .importsSymbol item⟩) rest
         | none => symbolImportLoop deps path g rest)
    | _ => .error ("ValueError: unpacking split of " ++ n)

/-- The inner methods loop body of `create_graph`: a method node namespaced
under the class and a contains edge from the class. -/
def methodStep (classId : String) (g : Graph) (m : MethodInfo) : Graph :=
  let methodId := classId ++ "::" ++ m.name
  addEdge (addNode g methodId "methods") ⟨classId, methodId, .contains⟩

/-- The classes loop body: a class node, a contains edge from the file, then
the methods loop. -/
def classStep (path : String) (g : Graph) (c : ClassInfo) : Graph :=
  let classId := path ++ "::" ++ c.name
  let g := addEdge (addNode g classId "classes") ⟨path, classId, .contains⟩
  c.methods.foldl (methodStep classId) g

/-- The classes loop of `create_graph`. -/
def classLoop (path : String) (g : Graph) (classes : List ClassInfo) : Graph :=
  classes.foldl (classStep path) g

/-- The functions loop body: a function node and a contains edge from the
file. -/
def funcStep (path : String) (g : Graph) (fn : FuncInfo) : Graph :=
  let funcId := path ++ "::" ++ fn.name
  addEdge (addNode g funcId "functions") ⟨path, funcId, .contains⟩

/-- The functions loop of `create_graph`, one node and edge per record of
the (exhaustive-walk) function list. -/
def funcLoop (path : String) (g : Graph) (functions : List FuncInfo) : Graph :=
  functions.foldl (funcStep path) g

/-- The body of the second `create_graph` loop for one dict entry. -/
def fileStep (deps : Dependencies) (g : Graph) (path : String)
    (data : FileData) : Except String Graph :=
  match symbolImportLoop deps path (moduleImportLoop deps path g data.imports)
      data.imported_names with
  | .ok g => .ok (funcLoop path (classLoop path g data.classes) data.functions)
  | .error e => .error e

/-- The second `create_graph` loop over all entries; a `ValueError` raised
for one entry aborts the whole build. -/
def filesLoop (deps : Dependencies) (g : Graph) :
    List (String × FileData) → Except String Graph
  | [] => .ok g
  | (path, data) :: rest =>
    match fileStep deps g path data with
    | .ok g => filesLoop deps g rest
    | .error e => .error e

/-- `GraphVisualizer.create_graph`: first a `files` node per dict entry,
then the per-entry import edges and declaration nodes/edges; `.error` is an
uncaught `ValueError`. -/
def createGraph (deps : Dependencies) : Except String Graph :=
  let g := deps.foldl (fun g kv => addNode g kv.1 "files") ⟨[], []⟩
  filesLoop deps g deps

/-! ## Concrete projects used as witnesses and counterexamples -/

/-- The default configuration (`include_external=False`). -/
def cfgF : Config := ⟨[".py", ".js", ".html", ".css"], false⟩

/-- The default extensions with `include_external=True`. -/
def cfgT : Config := ⟨[".py", ".js", ".html", ".css"], true⟩

/-- A nonexistent project root. -/
def projGone : Project := ⟨"/nope", false, [], []⟩

/-- A project holding only `a.py` with `from os import path` and no local
module named `os`. -/
def projOs : Project :=
  { rootPath := "/proj", rootExists := true,
    files := [⟨"", "a.py", some [.impFrom (some "os") ["path"]]⟩],
    diskPaths := ["/proj", "/proj/a.py"] }

/-- A project with `a.py` containing `import b` and an empty `b.py`. -/
def projB : Project :=
  { rootPath := "/proj", rootExists := true,
    files := [⟨"", "a.py", some [.imp ["b"]]⟩, ⟨"", "b.py", some []⟩],
    diskPaths := ["/proj", "/proj/a.py", "/proj/b.py"] }

/-- A project with a single `a.js` file (readable, but not Python). -/
def projJs : Project :=
  { rootPath := "/proj", rootExists := true,
    files := [⟨"", "a.js", some []⟩],
    diskPaths := ["/proj", "/proj/a.js"] }

/-- The syntax tree of a file with one class `A` holding methods `m1`, `m2`,
plus a module-level function `f`. -/
def treeC2 : List PyStmt :=
  [.classDef "A" (.cons (.funcDef "m1" 2 ["self"] .nil)
      (.cons (.funcDef "m2" 4 ["self"] .nil) .nil)),
   .funcDef "f" 6 [] .nil]

/-- A project holding only `c.py` with `treeC2` as its parse. -/
def projC2 : Project :=
  { rootPath := "/proj", rootExists := true,
    files := [⟨"", "c.py", some treeC2⟩],
    diskPaths := ["/proj", "/proj/c.py"] }

/-- Two well-parsed files around one file whose parse fails. -/
def projBad : Project :=
  { rootPath := "/proj", rootExists := true,
    files := [⟨"", "a.py", some []⟩, ⟨"", "broken.py", none⟩, ⟨"", "b.py", some []⟩],
    diskPaths := ["/proj", "/proj/a.py", "/proj/broken.py", "/proj/b.py"] }

/-! ## Specification-side views used by the proofs -/

/-- The entry `_analyze_file` stores for one scanned file: `none` when the
file is not Python or its parse fails. -/
def entryOf (p : Project) (cfg : Config) (f : DiskFile) :
    Option (String × FileData) :=
  if strEndsWith (filePath p f) ".py" then
    f.parsed.map (fun tree => (f.relPath, mkFileData p cfg (fileDir p f) tree))
  else none

/-- The analysis result as a one-pass specification: one entry per scanned
Python file that parses. -/
def analyzedOf (p : Project) (cfg : Config) : Dependencies :=
  (scanFiles p cfg).filterMap (entryOf p cfg)

/-- The ways one walked statement contributes an entry to `imported_names`:
either the full dotted alias of a plain `import`, or
`firstSeg module ++ "." ++ symbol` for a (truthy-module) from-import. -/
def stepAdds (s : PyStmt) (n : String) : Prop :=
  (∃ names, s = .imp names ∧ n ∈ names) ∨
  (∃ m names sym, s = .impFrom (some m) names ∧ m ≠ "" ∧ sym ∈ names ∧
    n = firstSeg m ++ "." ++ sym)

/-- A file's `imported_names` are all unpackable as `module, symbol`. -/
def wfNames (data : FileData) : Prop :=
  ∀ n ∈ data.imported_names, (splitDot n).length = 2

instance : DecidablePred wfNames :=
  fun data => List.decidableBAll (fun n => (splitDot n).length = 2) data.imported_names

/-- The module-level import edges one entry contributes. -/
def moduleEdges (deps : Dependencies) (path : String)
    (imports : List String) : List GEdge :=
  imports.filterMap (fun m =>
    (findTarget deps m).map (fun t => GEdge.mk path t EdgeKind.importsModule))

/-- The symbol-level edge one well-formed `imported_names` entry
contributes (none on a basename miss). -/
def symbolEdgeFor (deps : Dependencies) (path : String) (n : String) : Option GEdge :=
  match splitDot n with
  | [m, item] =>
      (findTarget deps m).map (fun t => GEdge.mk path t (EdgeKind.importsSymbol item))
  | _ => none

/-- The symbol-level import edges one entry contributes (meaningful when the
names are well-formed). -/
def symbolEdges (deps : Dependencies) (path : String)
    (names : List String) : List GEdge :=
  names.filterMap (symbolEdgeFor deps path)

/-- The contains edges of the classes loop. -/
def classEdges (path : String) (classes : List ClassInfo) : List GEdge :=
  classes.flatMap (fun c =>
    GEdge.mk path (path ++ "::" ++ c.name) EdgeKind.contains ::
      c.methods.map (fun m =>
        GEdge.mk (path ++ "::" ++ c.name)
          ((path ++ "::" ++ c.name) ++ "::" ++ m.name) EdgeKind.contains))

/-- The contains edges of the functions loop. -/
def funcEdges (path : String) (functions : List FuncInfo) : List GEdge :=
  functions.map (fun fn =>
    GEdge.mk path (path ++ "::" ++ fn.name) EdgeKind.contains)

/-- All edges one dict entry appends, in order. -/
def entryEdges (deps : Dependencies) (path : String) (data : FileData) : List GEdge :=
  moduleEdges deps path data.imports ++ symbolEdges deps path data.imported_names ++
    classEdges path data.classes ++ funcEdges path data.functions

/-- All edges of the second `create_graph` loop over `entries`. -/
def allEdges (deps : Dependencies) (entries : List (String × FileData)) : List GEdge :=
  entries.flatMap (fun kv => entryEdges deps kv.1 kv.2)

/-- The predicate picking the untitled blue module-import edges leaving one
file node. -/
def isModuleEdgeFrom (path : String) (e : GEdge) : Bool :=
  e.src == path && e.kind == EdgeKind.importsModule

/-! ## String facts -/

theorem strNe_of_length {a b : String} (h : a.data.length ≠ b.data.length) :
    a ≠ b := by
  intro e
  exact h (by rw [e])

theorem strApp_data (a b : String) : (a ++ b).data = a.data ++ b.data :=
  String.data_append a b

theorem strApp_left_cancel {a b c : String} (h : a ++ b = a ++ c) : b = c := by
  have hd : a.data ++ b.data = a.data ++ c.data := by
    rw [← strApp_data, ← strApp_data, h]
  cases b with
  | mk bd =>
    cases c with
    | mk cd =>
      simp only [List.append_cancel_left_eq] at hd
      exact congrArg String.mk hd

/-- `p ++ "::" ++ s` is never `p` itself. -/
theorem colonId_ne_base (p s : String) : p ++ "::" ++ s ≠ p := by
  apply strNe_of_length
  simp [strApp_data]

/-- `p` is never `p ++ "::" ++ s`. -/
theorem base_ne_colonId (p s : String) : p ≠ p ++ "::" ++ s :=
  (colonId_ne_base p s).symm

/-- Identifiers namespaced under the same parent agree iff the names do. -/
theorem colonId_inj {p s t : String} (h : p ++ "::" ++ s = p ++ "::" ++ t) :
    s = t := by
  rw [String.append_assoc, String.append_assoc] at h
  exact strApp_left_cancel (strApp_left_cancel h)

/-- A string without a colon never equals `a ++ "::" ++ b`. -/
theorem noColon_ne_colonJoin {x : String} (a b : String)
    (hx : ':' ∉ x.data) : x ≠ a ++ "::" ++ b := by
  intro e
  apply hx
  rw [e]
  simp [strApp_data]

/-- A string never equals itself extended by `"::" ++ b`. -/
theorem self_ne_colonExt (a b : String) : a ≠ a ++ "::" ++ b := by
  apply strNe_of_length
  simp [strApp_data]

theorem len_lt_ne {a b : String} (h : a.data.length < b.data.length) : a ≠ b :=
  strNe_of_length (Nat.ne_of_lt h)

/-- A path never equals a method identifier namespaced two levels below it. -/
theorem base_ne_mid (p s t : String) : p ≠ (p ++ "::" ++ s) ++ "::" ++ t := by
  apply len_lt_ne
  have h2 : ("::" : String).data.length = 2 := rfl
  simp [strApp_data, h2]

theorem colonId_ne_of_ne (p : String) {s t : String} (h : s ≠ t) :
    p ++ "::" ++ s ≠ p ++ "::" ++ t := fun e => h (colonId_inj e)

/-- A method identifier under `p::s` differs from `p::x` when `x` is not
`s ++ "::" ++ t` (in particular when `x` has no colon). -/
theorem mid_ne_fid {p s t x : String} (h : x ≠ s ++ "::" ++ t) :
    (p ++ "::" ++ s) ++ "::" ++ t ≠ p ++ "::" ++ x := by
  intro e
  apply h
  have e' : p ++ "::" ++ (s ++ "::" ++ t) = p ++ "::" ++ x := by
    rw [← e, String.append_assoc (p ++ "::") s "::",
      String.append_assoc (p ++ "::") (s ++ "::") t]
  exact (colonId_inj e').symm

/-! ## `setAdd` and `dictSet` facts -/

theorem mem_setAdd {l : List String} {x y : String} :
    y ∈ setAdd l x ↔ y ∈ l ∨ y = x := by
  by_cases h : x ∈ l
  · simp only [setAdd, if_pos h]
    constructor
    · exact Or.inl
    · rintro (hy | rfl) <;> assumption
  · simp [setAdd, if_neg h]

theorem subset_setAdd (l : List String) (x : String) : l ⊆ setAdd l x := by
  intro y hy
  exact mem_setAdd.mpr (Or.inl hy)

theorem mem_foldl_setAdd {l acc : List String} {y : String} :
    y ∈ l.foldl setAdd acc ↔ y ∈ acc ∨ y ∈ l := by
  induction l generalizing acc with
  | nil => simp
  | cons a l ih =>
    simp only [List.foldl_cons, ih, mem_setAdd, List.mem_cons]
    tauto

theorem dictSet_of_not_mem {d : Dependencies} {k : String} (v : FileData)
    (h : k ∉ d.map Prod.fst) : dictSet d k v = d ++ [(k, v)] := by
  have hany : d.any (fun kv => kv.1 == k) = false := by
    simp only [List.any_eq_false]
    intro kv hkv
    simp only [beq_iff_eq]
    intro e
    exact h (List.mem_map.mpr ⟨kv, hkv, e⟩)
  simp [dictSet, hany]

theorem mem_dictSet {d : Dependencies} {k : String} {v : FileData}
    {e : String × FileData} (h : e ∈ dictSet d k v) : e ∈ d ∨ e = (k, v) := by
  unfold dictSet at h
  by_cases hc : d.any (fun kv => kv.1 == k)
  · rw [if_pos hc] at h
    obtain ⟨kv, hkv, he⟩ := List.mem_map.mp h
    by_cases hk : kv.1 == k
    · rw [if_pos hk] at he
      exact Or.inr he.symm
    · rw [if_neg hk] at he
      exact Or.inl (he ▸ hkv)
  · rw [if_neg hc] at h
    rcases List.mem_append.mp h with h' | h'
    · exact Or.inl h'
    · exact Or.inr (List.mem_singleton.mp h')

/-! ## Characterizing the analysis result -/


theorem analyzeFile_eq_entryOf (p : Project) (cfg : Config) (deps : Dependencies)
    (f : DiskFile) :
    analyzeFile p cfg deps f =
      match entryOf p cfg f with
      | some kv => dictSet deps kv.1 kv.2
      | none => deps := by
  unfold analyzeFile entryOf
  by_cases hpy : strEndsWith (filePath p f) ".py"
  · rw [if_pos hpy, if_pos hpy]
    cases f.parsed <;> rfl
  · rw [if_neg hpy, if_neg hpy]

theorem foldl_analyzeFile_eq (p : Project) (cfg : Config) :
    ∀ (fs : List DiskFile) (deps : Dependencies),
      ((deps.map Prod.fst) ++ (fs.filterMap (entryOf p cfg)).map Prod.fst).Nodup →
      fs.foldl (analyzeFile p cfg) deps = deps ++ fs.filterMap (entryOf p cfg) := by
  intro fs
  induction fs with
  | nil => intro deps _; simp
  | cons f fs ih =>
    intro deps hnd
    rw [List.foldl_cons, analyzeFile_eq_entryOf]
    cases he : entryOf p cfg f with
    | none =>
      rw [List.filterMap_cons_none he] at hnd ⊢
      exact ih deps hnd
    | some kv =>
      rw [List.filterMap_cons_some he] at hnd ⊢
      have hstep : (match some kv with
          | some kv => dictSet deps kv.1 kv.2
          | none => deps) = dictSet deps kv.1 kv.2 := rfl
      rw [hstep]
      have hk : kv.1 ∉ deps.map Prod.fst := by
        rw [List.map_cons] at hnd
        have hdisj := (List.nodup_append.mp hnd).2.2
        intro hmem
        exact hdisj hmem (List.mem_cons_self kv.1 _)
      rw [dictSet_of_not_mem kv.2 hk]
      have hnd' : (((deps ++ [kv]).map Prod.fst) ++
          (fs.filterMap (entryOf p cfg)).map Prod.fst).Nodup := by
        rw [List.map_append]
        rw [List.map_cons] at hnd
        simpa [List.append_assoc] using hnd
      rw [ih (deps ++ [kv]) hnd', List.append_assoc]
      rfl

/-- Under key uniqueness, `analyze` builds exactly the one-entry-per-good-
file list (the strong shape of the result). -/
theorem analyzeDeps_eq (p : Project) (cfg : Config)
    (h : ((analyzedOf p cfg).map Prod.fst).Nodup) :
    analyzeDeps p cfg = analyzedOf p cfg := by
  unfold analyzeDeps analyzedOf
  have := foldl_analyzeFile_eq p cfg (scanFiles p cfg) []
  simp only [List.map_nil, List.nil_append] at this
  exact this h

/-- The keys of the specification list: the relative paths of the scanned
`.py` files whose parse succeeded, in scan order. -/
theorem analyzedOf_keys (p : Project) (cfg : Config) :
    (analyzedOf p cfg).map Prod.fst =
      ((scanFiles p cfg).filter
        (fun f => strEndsWith (filePath p f) ".py" && f.parsed.isSome)).map
        DiskFile.relPath := by
  unfold analyzedOf
  induction scanFiles p cfg with
  | nil => rfl
  | cons f fs ih =>
    by_cases hpy : strEndsWith (filePath p f) ".py"
    · cases hp : f.parsed with
      | none =>
        rw [List.filterMap_cons_none (by simp [entryOf, hpy, hp])]
        rw [List.filter_cons_of_neg (by simp [hpy, hp])]
        exact ih
      | some tree =>
        have hsome : entryOf p cfg f =
            some (f.relPath, mkFileData p cfg (fileDir p f) tree) := by
          simp [entryOf, hpy, hp]
        rw [List.filterMap_cons_some hsome]
        rw [List.filter_cons_of_pos (by simp [hpy, hp])]
        simp only [List.map_cons]
        exact congrArg _ ih
    · rw [List.filterMap_cons_none (by simp [entryOf, hpy])]
      rw [List.filter_cons_of_neg (by simp [hpy])]
      exact ih

/-- Every entry of the analysis result, duplicates or not, is the stored
record of one scanned, successfully parsed Python file (the weak shape of
the result). -/
theorem foldl_analyzeFile_values (p : Project) (cfg : Config) :
    ∀ (fs : List DiskFile) (deps : Dependencies),
      ∀ e ∈ fs.foldl (analyzeFile p cfg) deps,
        e ∈ deps ∨ ∃ f ∈ fs, ∃ tree, f.parsed = some tree ∧
          strEndsWith (filePath p f) ".py" = true ∧
          e = (f.relPath, mkFileData p cfg (fileDir p f) tree) := by
  intro fs
  induction fs with
  | nil => intro deps e he; exact Or.inl he
  | cons f fs ih =>
    intro deps e he
    rw [List.foldl_cons] at he
    rcases ih (analyzeFile p cfg deps f) e he with hin | ⟨f', hf', rest⟩
    · rw [analyzeFile_eq_entryOf] at hin
      cases hent : entryOf p cfg f with
      | none => rw [hent] at hin; exact Or.inl hin
      | some kv =>
        rw [hent] at hin
        rcases mem_dictSet hin with hin' | rfl
        · exact Or.inl hin'
        · right
          refine ⟨f, List.mem_cons_self f fs, ?_⟩
          unfold entryOf at hent
          by_cases hpy : strEndsWith (filePath p f) ".py"
          · rw [if_pos hpy] at hent
            cases hp : f.parsed with
            | none => rw [hp] at hent; cases hent
            | some tree =>
              rw [hp] at hent
              have hkv : (f.relPath, mkFileData p cfg (fileDir p f) tree) = kv :=
                Option.some.inj hent
              exact ⟨tree, rfl, hpy, by rw [← hkv]⟩
          · rw [if_neg hpy] at hent; cases hent
    · exact Or.inr ⟨f', List.mem_cons_of_mem f hf', rest⟩

theorem analyzeDeps_values (p : Project) (cfg : Config) :
    ∀ e ∈ analyzeDeps p cfg, ∃ f ∈ scanFiles p cfg, ∃ tree,
      f.parsed = some tree ∧ strEndsWith (filePath p f) ".py" = true ∧
      e = (f.relPath, mkFileData p cfg (fileDir p f) tree) := by
  intro e he
  rcases foldl_analyzeFile_values p cfg (scanFiles p cfg) [] e he with h | h
  · cases h
  · exact h

/-! ## Facts about the external-import filtering -/

theorem filterFold_fst_mono (p : Project) (fdir : String) (importedNames : List String) :
    ∀ (l : List String) (acc : List String × List String),
      acc.1 ⊆ (l.foldl (filterStep p fdir importedNames) acc).1 := by
  intro l
  induction l with
  | nil => intro acc; exact fun _ h => h
  | cons imp l ih =>
    intro acc
    rw [List.foldl_cons]
    refine List.Subset.trans ?_ (ih (filterStep p fdir importedNames acc imp))
    unfold filterStep
    by_cases hl : isLocal p fdir imp
    · rw [if_pos hl]
      exact subset_setAdd acc.1 imp
    · rw [if_neg hl]
      exact fun _ h => h

theorem filterFold_consistent (p : Project) (fdir : String) (importedNames : List String) :
    ∀ (l : List String) (acc : List String × List String),
      (∀ n ∈ acc.2, firstSeg n ∈ acc.1) →
      ∀ n ∈ (l.foldl (filterStep p fdir importedNames) acc).2,
        firstSeg n ∈ (l.foldl (filterStep p fdir importedNames) acc).1 := by
  intro l
  induction l with
  | nil => intro acc h; exact h
  | cons imp l ih =>
    intro acc hacc
    rw [List.foldl_cons]
    apply ih
    unfold filterStep
    by_cases hl : isLocal p fdir imp
    · rw [if_pos hl]
      intro n hn
      rcases mem_foldl_setAdd.mp hn with hn' | hn'
      · exact subset_setAdd acc.1 imp (hacc n hn')
      · have := List.of_mem_filter hn'
        have heq : firstSeg n = imp := by simpa using this
        rw [heq]
        exact mem_setAdd.mpr (Or.inr rfl)
    · rw [if_neg hl]; exact hacc

theorem filterFold_subsets (p : Project) (fdir : String) (importedNames : List String) :
    ∀ (l : List String) (acc : List String × List String),
      (∀ x ∈ (l.foldl (filterStep p fdir importedNames) acc).1, x ∈ acc.1 ∨ x ∈ l) ∧
      (∀ n ∈ (l.foldl (filterStep p fdir importedNames) acc).2,
        n ∈ acc.2 ∨ n ∈ importedNames) := by
  intro l
  induction l with
  | nil => intro acc; exact ⟨fun x h => Or.inl h, fun n h => Or.inl h⟩
  | cons imp l ih =>
    intro acc
    rw [List.foldl_cons]
    obtain ⟨ih1, ih2⟩ := ih (filterStep p fdir importedNames acc imp)
    constructor
    · intro x hx
      rcases ih1 x hx with hx' | hx'
      · unfold filterStep at hx'
        by_cases hl : isLocal p fdir imp
        · rw [if_pos hl] at hx'
          rcases mem_setAdd.mp hx' with h' | rfl
          · exact Or.inl h'
          · exact Or.inr (List.mem_cons_self x l)
        · rw [if_neg hl] at hx'; exact Or.inl hx'
      · exact Or.inr (List.mem_cons_of_mem imp hx')
    · intro n hn
      rcases ih2 n hn with hn' | hn'
      · unfold filterStep at hn'
        by_cases hl : isLocal p fdir imp
        · rw [if_pos hl] at hn'
          rcases mem_foldl_setAdd.mp hn' with h' | h'
          · exact Or.inl h'
          · exact Or.inr (List.mem_of_mem_filter h')
        · rw [if_neg hl] at hn'; exact Or.inl hn'
      · exact Or.inr hn'

/-- With `include_external=False`, the stored `imported_names` all carry a
module prefix present in the stored `imports`. -/
theorem mkFileData_false_consistent (p : Project) (cfg : Config) (fdir : String)
    (tree : List PyStmt) (hext : cfg.includeExternal = false) :
    ∀ n ∈ (mkFileData p cfg fdir tree).imported_names,
      firstSeg n ∈ (mkFileData p cfg fdir tree).imports := by
  unfold mkFileData
  rw [hext]
  simp only [Bool.false_eq_true, if_false]
  exact filterFold_consistent p fdir (extractImports tree).2
    (extractImports tree).1 ([], []) (by intro n hn; cases hn)

/-- The stored import sets are always among the raw extracted ones. -/
theorem mkFileData_subsets (p : Project) (cfg : Config) (fdir : String)
    (tree : List PyStmt) :
    (∀ x ∈ (mkFileData p cfg fdir tree).imports, x ∈ (extractImports tree).1) ∧
    (∀ n ∈ (mkFileData p cfg fdir tree).imported_names, n ∈ (extractImports tree).2) := by
  unfold mkFileData
  cases hext : cfg.includeExternal with
  | true =>
    simp only [if_true]
    exact ⟨fun x h => h, fun n h => h⟩
  | false =>
    simp only [Bool.false_eq_true, if_false]
    obtain ⟨h1, h2⟩ := filterFold_subsets p fdir (extractImports tree).2
      (extractImports tree).1 ([], [])
    constructor
    · intro x hx
      rcases h1 x hx with h | h
      · cases h
      · exact h
    · intro n hn
      rcases h2 n hn with h | h
      · cases h
      · exact h

/-! ## Where `imported_names` entries come from -/


theorem snd_impFold (l : List String) :
    ∀ acc : List String × List String,
      (l.foldl (fun acc nm => (setAdd acc.1 (firstSeg nm), setAdd acc.2 nm)) acc).2 =
        l.foldl setAdd acc.2 := by
  induction l with
  | nil => intro acc; rfl
  | cons nm l ih => intro acc; rw [List.foldl_cons, List.foldl_cons, ih]

theorem snd_fromFold (mn : String) (l : List String) :
    ∀ acc : List String × List String,
      (l.foldl (fun acc nm => (acc.1, setAdd acc.2 (mn ++ "." ++ nm))) acc).2 =
        (l.map (fun nm => mn ++ "." ++ nm)).foldl setAdd acc.2 := by
  induction l with
  | nil => intro acc; rfl
  | cons nm l ih => intro acc; rw [List.foldl_cons, List.map_cons, List.foldl_cons, ih]

theorem extractStep_impFrom_some (acc : List String × List String)
    (m : String) (names : List String) :
    extractStep acc (.impFrom (some m) names) =
      if m = "" then acc
      else names.foldl
        (fun acc nm => (acc.1, setAdd acc.2 (firstSeg m ++ "." ++ nm)))
        (setAdd acc.1 (firstSeg m), acc.2) := rfl

theorem mem_extractStep_snd {acc : List String × List String} {s : PyStmt}
    {n : String} (h : n ∈ (extractStep acc s).2) : n ∈ acc.2 ∨ stepAdds s n := by
  cases s with
  | imp names =>
    unfold extractStep at h
    rw [snd_impFold] at h
    rcases mem_foldl_setAdd.mp h with h' | h'
    · exact Or.inl h'
    · exact Or.inr (Or.inl ⟨names, rfl, h'⟩)
  | impFrom mo names =>
    cases mo with
    | none => exact Or.inl h
    | some m =>
      rw [extractStep_impFrom_some] at h
      by_cases hm : m = ""
      · rw [if_pos hm] at h
        exact Or.inl h
      · rw [if_neg hm] at h
        rw [snd_fromFold] at h
        rcases mem_foldl_setAdd.mp h with h' | h'
        · exact Or.inl h'
        · obtain ⟨sym, hsym, heq⟩ := List.mem_map.mp h'
          exact Or.inr (Or.inr ⟨m, names, sym, rfl, hm, hsym, heq.symm⟩)
  | funcDef name lineno args body => exact Or.inl h
  | classDef name body => exact Or.inl h
  | other body => exact Or.inl h

theorem mem_extractFold_snd :
    ∀ (ns : List PyStmt) (acc : List String × List String) (n : String),
      n ∈ (ns.foldl extractStep acc).2 → n ∈ acc.2 ∨ ∃ s ∈ ns, stepAdds s n := by
  intro ns
  induction ns with
  | nil => intro acc n h; exact Or.inl h
  | cons s ns ih =>
    intro acc n h
    rw [List.foldl_cons] at h
    rcases ih (extractStep acc s) n h with h' | ⟨s', hs', hadd⟩
    · rcases mem_extractStep_snd h' with h'' | h''
      · exact Or.inl h''
      · exact Or.inr ⟨s, List.mem_cons_self s ns, h''⟩
    · exact Or.inr ⟨s', List.mem_cons_of_mem s hs', hadd⟩

/-- Every raw `imported_names` entry traces to one import statement of the
walked tree. -/
theorem mem_extractImports_snd {tree : List PyStmt} {n : String}
    (h : n ∈ (extractImports tree).2) : ∃ s ∈ walk tree, stepAdds s n := by
  rcases mem_extractFold_snd (walk tree) ([], []) n h with h' | h'
  · cases h'
  · exact h'

/-! ## Characterizing the edges `create_graph` builds -/




theorem symbolEdgeFor_two {n m item : String} (deps : Dependencies) (path : String)
    (hs : splitDot n = [m, item]) :
    symbolEdgeFor deps path n =
      (findTarget deps m).map (fun t => GEdge.mk path t (EdgeKind.importsSymbol item)) := by
  unfold symbolEdgeFor
  rw [hs]






theorem addNode_edges (g : Graph) (id group : String) :
    (addNode g id group).edges = g.edges := by
  unfold addNode
  by_cases h : g.nodes.any (fun n => n.id == id)
  · rw [if_pos h]
  · rw [if_neg h]

theorem moduleImportLoop_eq (deps : Dependencies) (path : String) :
    ∀ (imports : List String) (g : Graph),
      moduleImportLoop deps path g imports =
        ⟨g.nodes, g.edges ++ moduleEdges deps path imports⟩ := by
  intro imports
  induction imports with
  | nil => intro g; simp [moduleImportLoop, moduleEdges]
  | cons m rest ih =>
    intro g
    unfold moduleImportLoop at ih ⊢
    rw [List.foldl_cons]
    cases ht : findTarget deps m with
    | none =>
      rw [ih g]
      unfold moduleEdges
      rw [List.filterMap_cons_none (by rw [ht]; rfl)]
    | some t =>
      rw [ih (addEdge g ⟨path, t, .importsModule⟩)]
      unfold moduleEdges
      rw [List.filterMap_cons_some (by rw [ht]; rfl)]
      unfold addEdge
      simp [List.append_assoc]

theorem symbolImportLoop_cons_two {n m item : String} (deps : Dependencies)
    (path : String) (g : Graph) (rest : List String)
    (hs : splitDot n = [m, item]) :
    symbolImportLoop deps path g (n :: rest) =
      match findTarget deps m with
      | some t =>
          symbolImportLoop deps path
            (addEdge g ⟨path, t, .importsSymbol item⟩) rest
      | none => symbolImportLoop deps path g rest := by
  conv_lhs => unfold symbolImportLoop
  rw [hs]

theorem two_of_length_two {l : List String} (h : l.length = 2) :
    ∃ a b, l = [a, b] := by
  cases l with
  | nil => cases h
  | cons a l' =>
    cases l' with
    | nil => cases h
    | cons b l'' =>
      cases l'' with
      | nil => exact ⟨a, b, rfl⟩
      | cons c l''' => cases h

theorem symbolImportLoop_cons_hit {n m item t : String} (deps : Dependencies)
    (path : String) (g : Graph) (rest : List String)
    (hs : splitDot n = [m, item]) (ht : findTarget deps m = some t) :
    symbolImportLoop deps path g (n :: rest) =
      symbolImportLoop deps path
        (addEdge g ⟨path, t, .importsSymbol item⟩) rest := by
  rw [symbolImportLoop_cons_two deps path g rest hs, ht]

theorem symbolImportLoop_cons_miss {n m item : String} (deps : Dependencies)
    (path : String) (g : Graph) (rest : List String)
    (hs : splitDot n = [m, item]) (ht : findTarget deps m = none) :
    symbolImportLoop deps path g (n :: rest) =
      symbolImportLoop deps path g rest := by
  rw [symbolImportLoop_cons_two deps path g rest hs, ht]

theorem symbolImportLoop_ok (deps : Dependencies) (path : String) :
    ∀ (names : List String) (g : Graph),
      (∀ n ∈ names, (splitDot n).length = 2) →
      symbolImportLoop deps path g names =
        .ok ⟨g.nodes, g.edges ++ symbolEdges deps path names⟩ := by
  intro names
  induction names with
  | nil => intro g _; simp [symbolImportLoop, symbolEdges]
  | cons n rest ih =>
    intro g hwf
    obtain ⟨m, item, hs⟩ := two_of_length_two (hwf n (List.mem_cons_self n rest))
    have hrest : ∀ x ∈ rest, (splitDot x).length = 2 :=
      fun x hx => hwf x (List.mem_cons_of_mem n hx)
    cases ht : findTarget deps m with
    | none =>
      rw [symbolImportLoop_cons_miss deps path g rest hs ht, ih g hrest]
      unfold symbolEdges
      rw [List.filterMap_cons_none ((symbolEdgeFor_two deps path hs).trans
        (by rw [ht]; rfl))]
    | some t =>
      rw [symbolImportLoop_cons_hit deps path g rest hs ht,
        ih (addEdge g ⟨path, t, .importsSymbol item⟩) hrest]
      unfold symbolEdges
      rw [List.filterMap_cons_some ((symbolEdgeFor_two deps path hs).trans
        (by rw [ht]; rfl))]
      unfold addEdge
      simp [List.append_assoc]

theorem methodStep_edges (classId : String) (g : Graph) (m : MethodInfo) :
    (methodStep classId g m).edges =
      g.edges ++ [GEdge.mk classId (classId ++ "::" ++ m.name) EdgeKind.contains] := by
  simp [methodStep, addEdge, addNode_edges]

theorem methodFold_eq (classId : String) :
    ∀ (methods : List MethodInfo) (g : Graph),
      ∃ nodes', methods.foldl (methodStep classId) g =
        ⟨nodes', g.edges ++ methods.map (fun m =>
          GEdge.mk classId (classId ++ "::" ++ m.name) EdgeKind.contains)⟩ := by
  intro methods
  induction methods with
  | nil => intro g; exact ⟨g.nodes, by simp⟩
  | cons m rest ih =>
    intro g
    rw [List.foldl_cons]
    obtain ⟨nodes', hn⟩ := ih (methodStep classId g m)
    refine ⟨nodes', ?_⟩
    rw [hn, methodStep_edges]
    simp [List.append_assoc]

theorem classStep_edges (path : String) (g : Graph) (c : ClassInfo) :
    ∃ nodes', classStep path g c =
      ⟨nodes', g.edges ++
        (GEdge.mk path (path ++ "::" ++ c.name) EdgeKind.contains ::
          c.methods.map (fun m =>
            GEdge.mk (path ++ "::" ++ c.name)
              ((path ++ "::" ++ c.name) ++ "::" ++ m.name) EdgeKind.contains))⟩ := by
  unfold classStep
  obtain ⟨nodes', hm⟩ := methodFold_eq (path ++ "::" ++ c.name) c.methods
    (addEdge (addNode g (path ++ "::" ++ c.name) "classes")
      ⟨path, path ++ "::" ++ c.name, .contains⟩)
  refine ⟨nodes', ?_⟩
  rw [hm]
  unfold addEdge
  rw [addNode_edges]
  simp [List.append_assoc]

theorem classLoop_eq (path : String) :
    ∀ (classes : List ClassInfo) (g : Graph),
      ∃ nodes', classLoop path g classes =
        ⟨nodes', g.edges ++ classEdges path classes⟩ := by
  intro classes
  induction classes with
  | nil => intro g; exact ⟨g.nodes, by simp [classLoop, classEdges]⟩
  | cons c rest ih =>
    intro g
    unfold classLoop at ih ⊢
    rw [List.foldl_cons]
    obtain ⟨nodesc, hc⟩ := classStep_edges path g c
    rw [hc]
    obtain ⟨nodes', h'⟩ := ih ⟨nodesc, _⟩
    refine ⟨nodes', ?_⟩
    rw [h']
    unfold classEdges
    rw [List.flatMap_cons]
    simp [List.append_assoc]

theorem funcStep_edges (path : String) (g : Graph) (fn : FuncInfo) :
    (funcStep path g fn).edges =
      g.edges ++ [GEdge.mk path (path ++ "::" ++ fn.name) EdgeKind.contains] := by
  simp [funcStep, addEdge, addNode_edges]

theorem funcLoop_eq (path : String) :
    ∀ (functions : List FuncInfo) (g : Graph),
      ∃ nodes', funcLoop path g functions =
        ⟨nodes', g.edges ++ funcEdges path functions⟩ := by
  intro functions
  induction functions with
  | nil => intro g; exact ⟨g.nodes, by simp [funcLoop, funcEdges]⟩
  | cons fn rest ih =>
    intro g
    unfold funcLoop at ih ⊢
    rw [List.foldl_cons]
    obtain ⟨nodes', h'⟩ := ih (funcStep path g fn)
    refine ⟨nodes', ?_⟩
    rw [h', funcStep_edges]
    unfold funcEdges
    simp [List.append_assoc]

theorem fileStep_of_symbolLoop_ok {deps : Dependencies} {g g' : Graph}
    {path : String} {data : FileData}
    (h : symbolImportLoop deps path (moduleImportLoop deps path g data.imports)
      data.imported_names = .ok g') :
    fileStep deps g path data =
      .ok (funcLoop path (classLoop path g' data.classes) data.functions) := by
  unfold fileStep
  rw [h]

theorem fileStep_ok (deps : Dependencies) (path : String) (data : FileData)
    (g : Graph) (hwf : wfNames data) :
    ∃ nodes', fileStep deps g path data =
      .ok ⟨nodes', g.edges ++ entryEdges deps path data⟩ := by
  have hsym := symbolImportLoop_ok deps path data.imported_names
    (moduleImportLoop deps path g data.imports) hwf
  rw [fileStep_of_symbolLoop_ok hsym]
  simp only [moduleImportLoop_eq]
  obtain ⟨nodesc, hc⟩ := classLoop_eq path data.classes
    ⟨g.nodes, g.edges ++ moduleEdges deps path data.imports ++
      symbolEdges deps path data.imported_names⟩
  rw [hc]
  obtain ⟨nodesf, hf⟩ := funcLoop_eq path data.functions ⟨nodesc, _⟩
  rw [hf]
  refine ⟨nodesf, ?_⟩
  unfold entryEdges
  simp [List.append_assoc]

theorem filesLoop_ok (deps : Dependencies) :
    ∀ (entries : List (String × FileData)) (g : Graph),
      (∀ e ∈ entries, wfNames e.2) →
      ∃ g', filesLoop deps g entries = .ok g' ∧
        g'.edges = g.edges ++ allEdges deps entries := by
  intro entries
  induction entries with
  | nil => intro g _; exact ⟨g, rfl, by simp [allEdges]⟩
  | cons kv rest ih =>
    intro g hwf
    obtain ⟨path, data⟩ := kv
    obtain ⟨nodes', hstep⟩ := fileStep_ok deps path data g
      (hwf (path, data) (List.mem_cons_self _ rest))
    obtain ⟨g', hloop, hedges⟩ := ih ⟨nodes', g.edges ++ entryEdges deps path data⟩
      (fun e he => hwf e (List.mem_cons_of_mem _ he))
    refine ⟨g', ?_, ?_⟩
    · unfold filesLoop
      rw [hstep]
      exact hloop
    · rw [hedges]
      unfold allEdges
      rw [List.flatMap_cons, List.append_assoc]

theorem filesNodesFold_edges :
    ∀ (entries : List (String × FileData)) (g : Graph),
      (entries.foldl (fun g kv => addNode g kv.1 "files") g).edges = g.edges := by
  intro entries
  induction entries with
  | nil => intro g; rfl
  | cons kv rest ih =>
    intro g
    rw [List.foldl_cons, ih, addNode_edges]

/-- When every `imported_names` entry unpacks, `create_graph` completes and
its edge list is exactly the per-entry edge blocks in dict order. -/
theorem createGraph_ok (deps : Dependencies)
    (hwf : ∀ e ∈ deps, wfNames e.2) :
    ∃ g, createGraph deps = .ok g ∧ g.edges = allEdges deps deps := by
  unfold createGraph
  obtain ⟨g', hloop, hedges⟩ := filesLoop_ok deps deps
    (deps.foldl (fun g kv => addNode g kv.1 "files") ⟨[], []⟩) hwf
  refine ⟨g', hloop, ?_⟩
  rw [hedges, filesNodesFold_edges]
  rfl

/-! ## The failing path of `create_graph` -/

theorem symbolImportLoop_cons_err {n : String} (deps : Dependencies) (path : String)
    (g : Graph) (rest : List String) (hbad : (splitDot n).length ≠ 2) :
    symbolImportLoop deps path g (n :: rest) =
      .error ("ValueError: unpacking split of " ++ n) := by
  conv_lhs => unfold symbolImportLoop
  cases hsd : splitDot n with
  | nil => rfl
  | cons a t =>
    cases t with
    | nil => rfl
    | cons b t2 =>
      cases t2 with
      | nil => exact absurd (by rw [hsd]; rfl) hbad
      | cons c t3 => rfl

theorem symbolImportLoop_err (deps : Dependencies) (path : String) :
    ∀ (names : List String) (g : Graph),
      (∃ n ∈ names, (splitDot n).length ≠ 2) →
      ∃ e, symbolImportLoop deps path g names = .error e := by
  intro names
  induction names with
  | nil =>
    rintro g ⟨n, hn, _⟩
    cases hn
  | cons n0 rest ih =>
    rintro g ⟨n, hn, hbad⟩
    by_cases h0 : (splitDot n0).length = 2
    · obtain ⟨m, item, hs⟩ := two_of_length_two h0
      have hrest : ∃ x ∈ rest, (splitDot x).length ≠ 2 := by
        rcases List.mem_cons.mp hn with rfl | hr
        · exact absurd h0 hbad
        · exact ⟨n, hr, hbad⟩
      cases ht : findTarget deps m with
      | some t =>
        rw [symbolImportLoop_cons_hit deps path g rest hs ht]
        exact ih _ hrest
      | none =>
        rw [symbolImportLoop_cons_miss deps path g rest hs ht]
        exact ih _ hrest
    · exact ⟨_, symbolImportLoop_cons_err deps path g rest h0⟩

theorem fileStep_err (deps : Dependencies) (path : String) (data : FileData)
    (g : Graph) (hbad : ∃ n ∈ data.imported_names, (splitDot n).length ≠ 2) :
    ∃ e, fileStep deps g path data = .error e := by
  obtain ⟨e, he⟩ := symbolImportLoop_err deps path data.imported_names
    (moduleImportLoop deps path g data.imports) hbad
  refine ⟨e, ?_⟩
  unfold fileStep
  rw [he]

theorem filesLoop_err (deps : Dependencies) :
    ∀ (entries : List (String × FileData)) (g : Graph),
      (∃ pd ∈ entries, ∃ n ∈ (pd : String × FileData).2.imported_names,
        (splitDot n).length ≠ 2) →
      ∃ e, filesLoop deps g entries = .error e := by
  intro entries
  induction entries with
  | nil =>
    rintro g ⟨pd, hpd, _⟩
    cases hpd
  | cons kv rest ih =>
    rintro g ⟨pd, hpd, n, hn, hbad⟩
    obtain ⟨path0, data0⟩ := kv
    cases hfs : fileStep deps g path0 data0 with
    | error e =>
      refine ⟨e, ?_⟩
      unfold filesLoop
      rw [hfs]
    | ok g1 =>
      rcases List.mem_cons.mp hpd with rfl | hr
      · obtain ⟨e, he⟩ := fileStep_err deps path0 data0 g ⟨n, hn, hbad⟩
        rw [hfs] at he
        cases he
      · obtain ⟨e, he⟩ := ih g1 ⟨pd, hr, n, hn, hbad⟩
        refine ⟨e, ?_⟩
        unfold filesLoop
        rw [hfs]
        exact he

/-- An ill-formed `imported_names` entry anywhere in the dependency dict
makes `create_graph` raise `ValueError`. -/
theorem createGraph_err (deps : Dependencies) (path : String) (data : FileData)
    (n : String) (hmem : (path, data) ∈ deps) (hn : n ∈ data.imported_names)
    (hbad : (splitDot n).length ≠ 2) :
    ∃ e, createGraph deps = .error e := by
  obtain ⟨e, he⟩ := filesLoop_err deps deps
    (deps.foldl (fun g kv => addNode g kv.1 "files") ⟨[], []⟩)
    ⟨(path, data), hmem, n, hn, hbad⟩
  exact ⟨e, he⟩

/-! ## Module-import edges of the finished graph -/


theorem symbolEdgeFor_notTwo {deps : Dependencies} {path n : String}
    (hbad : (splitDot n).length ≠ 2) : symbolEdgeFor deps path n = none := by
  unfold symbolEdgeFor
  cases hsd : splitDot n with
  | nil => rfl
  | cons a t =>
    cases t with
    | nil => rfl
    | cons b t2 =>
      cases t2 with
      | nil => exact absurd (by rw [hsd]; rfl) hbad
      | cons c t3 => rfl

theorem symbolEdgeFor_shape {deps : Dependencies} {path n : String} {e : GEdge}
    (h : symbolEdgeFor deps path n = some e) :
    ∃ t item, e = GEdge.mk path t (EdgeKind.importsSymbol item) := by
  by_cases hlen : (splitDot n).length = 2
  · obtain ⟨a, b, hsd⟩ := two_of_length_two hlen
    rw [symbolEdgeFor_two deps path hsd] at h
    cases ht : findTarget deps a with
    | none => rw [ht] at h; cases h
    | some tgt =>
      rw [ht] at h
      exact ⟨tgt, b, (Option.some.inj h).symm⟩
  · rw [symbolEdgeFor_notTwo hlen] at h
    cases h

theorem filter_moduleEdges_self (deps : Dependencies) (path : String)
    (imports : List String) :
    (moduleEdges deps path imports).filter (isModuleEdgeFrom path) =
      moduleEdges deps path imports := by
  apply List.filter_eq_self.mpr
  intro e he
  obtain ⟨m, _, hmap⟩ := List.mem_filterMap.mp he
  cases ht : findTarget deps m with
  | none => rw [ht] at hmap; cases hmap
  | some t =>
    rw [ht] at hmap
    have he' := Option.some.inj hmap
    rw [← he']
    simp [isModuleEdgeFrom]

theorem filter_moduleEdges_ne (deps : Dependencies) (path' path : String)
    (imports : List String) (hne : path' ≠ path) :
    (moduleEdges deps path' imports).filter (isModuleEdgeFrom path) = [] := by
  apply List.filter_eq_nil_iff.mpr
  intro e he
  obtain ⟨m, _, hmap⟩ := List.mem_filterMap.mp he
  cases ht : findTarget deps m with
  | none => rw [ht] at hmap; cases hmap
  | some t =>
    rw [ht] at hmap
    have he' := Option.some.inj hmap
    rw [← he']
    simp [isModuleEdgeFrom, hne]

theorem filter_symbolEdges (deps : Dependencies) (path' path : String)
    (names : List String) :
    (symbolEdges deps path' names).filter (isModuleEdgeFrom path) = [] := by
  apply List.filter_eq_nil_iff.mpr
  intro e he
  obtain ⟨n, _, hmap⟩ := List.mem_filterMap.mp he
  obtain ⟨t, item, rfl⟩ := symbolEdgeFor_shape hmap
  simp [isModuleEdgeFrom]

theorem filter_classEdges (path' path : String) (classes : List ClassInfo) :
    (classEdges path' classes).filter (isModuleEdgeFrom path) = [] := by
  apply List.filter_eq_nil_iff.mpr
  intro e he
  obtain ⟨c, _, hmem⟩ := List.mem_flatMap.mp he
  rcases List.mem_cons.mp hmem with rfl | hm
  · simp [isModuleEdgeFrom]
  · obtain ⟨m, _, rfl⟩ := List.mem_map.mp hm
    simp [isModuleEdgeFrom]

theorem filter_funcEdges (path' path : String) (functions : List FuncInfo) :
    (funcEdges path' functions).filter (isModuleEdgeFrom path) = [] := by
  apply List.filter_eq_nil_iff.mpr
  intro e he
  obtain ⟨fn, _, rfl⟩ := List.mem_map.mp he
  simp [isModuleEdgeFrom]

theorem filter_entryEdges_self (deps : Dependencies) (path : String)
    (data : FileData) :
    (entryEdges deps path data).filter (isModuleEdgeFrom path) =
      moduleEdges deps path data.imports := by
  unfold entryEdges
  rw [List.filter_append, List.filter_append, List.filter_append,
    filter_moduleEdges_self, filter_symbolEdges, filter_classEdges,
    filter_funcEdges]
  simp

theorem filter_entryEdges_ne (deps : Dependencies) (path' path : String)
    (data : FileData) (hne : path' ≠ path) :
    (entryEdges deps path' data).filter (isModuleEdgeFrom path) = [] := by
  unfold entryEdges
  rw [List.filter_append, List.filter_append, List.filter_append,
    filter_moduleEdges_ne deps path' path data.imports hne, filter_symbolEdges,
    filter_classEdges, filter_funcEdges]
  simp

theorem filter_allEdges_not_mem (deps : Dependencies) :
    ∀ (entries : List (String × FileData)) (path : String),
      path ∉ entries.map Prod.fst →
      (allEdges deps entries).filter (isModuleEdgeFrom path) = [] := by
  intro entries
  induction entries with
  | nil => intro path _; rfl
  | cons kv rest ih =>
    intro path hpath
    unfold allEdges at ih ⊢
    rw [List.flatMap_cons, List.filter_append]
    have h1 : kv.1 ≠ path := by
      intro e
      exact hpath (by rw [List.map_cons, e]; exact List.mem_cons_self path _)
    rw [filter_entryEdges_ne deps kv.1 path kv.2 h1,
      ih path (fun h => hpath (by rw [List.map_cons]; exact List.mem_cons_of_mem _ h))]
    rfl

theorem filter_allEdges (deps : Dependencies) :
    ∀ (entries : List (String × FileData)) (path : String) (data : FileData),
      (entries.map Prod.fst).Nodup → (path, data) ∈ entries →
      (allEdges deps entries).filter (isModuleEdgeFrom path) =
        moduleEdges deps path data.imports := by
  intro entries
  induction entries with
  | nil =>
    intro path data _ hmem
    cases hmem
  | cons kv rest ih =>
    intro path data hnd hmem
    unfold allEdges at ih ⊢
    rw [List.flatMap_cons, List.filter_append]
    rw [List.map_cons] at hnd
    rcases List.mem_cons.mp hmem with rfl | hr
    · rw [filter_entryEdges_self]
      have hnot : path ∉ rest.map Prod.fst := (List.nodup_cons.mp hnd).1
      have := filter_allEdges_not_mem deps rest path hnot
      unfold allEdges at this
      rw [this, List.append_nil]
    · have hne : kv.1 ≠ path := by
        intro e
        exact (List.nodup_cons.mp hnd).1
          (e ▸ List.mem_map.mpr ⟨(path, data), hr, rfl⟩)
      rw [filter_entryEdges_ne deps kv.1 path kv.2 hne,
        ih path data (List.nodup_cons.mp hnd).2 hr, List.nil_append]

/-! ## The claims -/

/-- C1, counterexample: on a nonexistent root the analyzer does not surface
any error to the caller — it returns the empty result map, so the claimed
`ScanError` propagation is refuted at this input. -/
theorem claim1_counterexample :
    projGone.rootExists = false ∧ analyze projGone cfgF = Except.ok [] ∧
      ∀ e : String, analyze projGone cfgF ≠ Except.error e :=
  ⟨rfl, rfl, fun _ h => Except.noConfusion h⟩

/-- C1, amended: if the project root does not exist, the run does not abort:
`os.walk` yields nothing (and `_scan_directory` catches and only logs any
exception), so `analyze` returns normally with an empty dependency map. -/
theorem claim1_scan_missing_root (p : Project) (cfg : Config)
    (h : p.rootExists = false) : analyze p cfg = Except.ok [] := by
  unfold analyze analyzeDeps scanFiles
  rw [h]
  rfl

/-- C1, witness for the amended theorem at the concrete nonexistent root. -/
theorem claim1_witness :
    projGone.rootExists = false ∧ analyze projGone cfgF = Except.ok [] :=
  ⟨rfl, claim1_scan_missing_root projGone cfgF rfl⟩

/-- C2, counterexample: for the file with class `A` (methods `m1`, `m2`) and
module-level function `f`, the graph's per-group node counts and contains
edge count are not (1 file, 1 class, 2 methods, 1 function, 4 contains):
the actual counts are (1, 1, 2, 3, 6). -/
theorem claim2_counterexample :
    ¬ ((createGraph (analyzeDeps projC2 cfgF)).toOption.map (fun g =>
      ((g.nodes.filter (fun nd => nd.group == "files")).length,
       (g.nodes.filter (fun nd => nd.group == "classes")).length,
       (g.nodes.filter (fun nd => nd.group == "methods")).length,
       (g.nodes.filter (fun nd => nd.group == "functions")).length,
       (g.edges.filter (fun e => e.kind == EdgeKind.contains)).length)) =
      some (1, 1, 2, 1, 4)) := by decide

/-- C2, amended: for every analyzed file with exactly one class of two
methods plus one module-level function (distinct, colon-free declaration
names), the graph holds one file node, one class node, two method nodes,
three function nodes (the module-level function and both methods, which the
exhaustive `ast.walk` of `_get_functions` re-collects), and six contains
edges. -/
theorem claim2_node_counts (p : Project) (cfg : Config) (fdir path : String)
    (C m1 m2 f : String) (l1 l2 l3 : Nat) (a1 a2 a3 : List String)
    (h12 : m1 ≠ m2) (hf1 : f ≠ m1) (hf2 : f ≠ m2)
    (hfC : f ≠ C) (h1C : m1 ≠ C) (h2C : m2 ≠ C)
    (hcf : ':' ∉ f.data) (hcm1 : ':' ∉ m1.data) (hcm2 : ':' ∉ m2.data) :
    ∃ g, createGraph [(path, mkFileData p cfg fdir
        [.classDef C (.cons (.funcDef m1 l1 a1 .nil) (.cons (.funcDef m2 l2 a2 .nil) .nil)),
         .funcDef f l3 a3 .nil])] = Except.ok g ∧
      (g.nodes.filter (fun nd => nd.group == "files")).length = 1 ∧
      (g.nodes.filter (fun nd => nd.group == "classes")).length = 1 ∧
      (g.nodes.filter (fun nd => nd.group == "methods")).length = 2 ∧
      (g.nodes.filter (fun nd => nd.group == "functions")).length = 3 ∧
      (g.edges.filter (fun e => e.kind == EdgeKind.contains)).length = 6 := by
  obtain ⟨exts, iext⟩ := cfg
  have hdata : mkFileData p ⟨exts, iext⟩ fdir
      [.classDef C (.cons (.funcDef m1 l1 a1 .nil) (.cons (.funcDef m2 l2 a2 .nil) .nil)),
       .funcDef f l3 a3 .nil] =
      ⟨[], [], [⟨f, l3, a3⟩, ⟨m1, l1, a1⟩, ⟨m2, l2, a2⟩], [⟨C, [⟨m1, a1⟩, ⟨m2, a2⟩]⟩]⟩ := by
    cases iext <;> rfl
  rw [hdata]
  have q1 : path ≠ path ++ "::" ++ C := base_ne_colonId path C
  have q2 : path ≠ (path ++ "::" ++ C) ++ "::" ++ m1 := base_ne_mid path C m1
  have q3 : path ++ "::" ++ C ≠ (path ++ "::" ++ C) ++ "::" ++ m1 :=
    base_ne_colonId (path ++ "::" ++ C) m1
  have q4 : path ≠ (path ++ "::" ++ C) ++ "::" ++ m2 := base_ne_mid path C m2
  have q5 : path ++ "::" ++ C ≠ (path ++ "::" ++ C) ++ "::" ++ m2 :=
    base_ne_colonId (path ++ "::" ++ C) m2
  have q6 : (path ++ "::" ++ C) ++ "::" ++ m1 ≠ (path ++ "::" ++ C) ++ "::" ++ m2 :=
    colonId_ne_of_ne (path ++ "::" ++ C) h12
  have q7 : path ≠ path ++ "::" ++ f := base_ne_colonId path f
  have q8 : path ++ "::" ++ C ≠ path ++ "::" ++ f := colonId_ne_of_ne path (Ne.symm hfC)
  have q9 : (path ++ "::" ++ C) ++ "::" ++ m1 ≠ path ++ "::" ++ f :=
    mid_ne_fid (noColon_ne_colonJoin C m1 hcf)
  have q10 : (path ++ "::" ++ C) ++ "::" ++ m2 ≠ path ++ "::" ++ f :=
    mid_ne_fid (noColon_ne_colonJoin C m2 hcf)
  have q11 : path ≠ path ++ "::" ++ m1 := base_ne_colonId path m1
  have q12 : path ++ "::" ++ C ≠ path ++ "::" ++ m1 := colonId_ne_of_ne path (Ne.symm h1C)
  have q13 : (path ++ "::" ++ C) ++ "::" ++ m1 ≠ path ++ "::" ++ m1 :=
    mid_ne_fid (noColon_ne_colonJoin C m1 hcm1)
  have q14 : (path ++ "::" ++ C) ++ "::" ++ m2 ≠ path ++ "::" ++ m1 :=
    mid_ne_fid (noColon_ne_colonJoin C m2 hcm1)
  have q15 : path ++ "::" ++ f ≠ path ++ "::" ++ m1 := colonId_ne_of_ne path hf1
  have q16 : path ≠ path ++ "::" ++ m2 := base_ne_colonId path m2
  have q17 : path ++ "::" ++ C ≠ path ++ "::" ++ m2 := colonId_ne_of_ne path (Ne.symm h2C)
  have q18 : (path ++ "::" ++ C) ++ "::" ++ m1 ≠ path ++ "::" ++ m2 :=
    mid_ne_fid (noColon_ne_colonJoin C m1 hcm2)
  have q19 : (path ++ "::" ++ C) ++ "::" ++ m2 ≠ path ++ "::" ++ m2 :=
    mid_ne_fid (noColon_ne_colonJoin C m2 hcm2)
  have q20 : path ++ "::" ++ f ≠ path ++ "::" ++ m2 := colonId_ne_of_ne path hf2
  have q21 : path ++ "::" ++ m1 ≠ path ++ "::" ++ m2 := colonId_ne_of_ne path h12
  refine ⟨⟨[⟨path, "files"⟩, ⟨path ++ "::" ++ C, "classes"⟩,
      ⟨(path ++ "::" ++ C) ++ "::" ++ m1, "methods"⟩,
      ⟨(path ++ "::" ++ C) ++ "::" ++ m2, "methods"⟩,
      ⟨path ++ "::" ++ f, "functions"⟩,
      ⟨path ++ "::" ++ m1, "functions"⟩,
      ⟨path ++ "::" ++ m2, "functions"⟩],
     [⟨path, path ++ "::" ++ C, .contains⟩,
      ⟨path ++ "::" ++ C, (path ++ "::" ++ C) ++ "::" ++ m1, .contains⟩,
      ⟨path ++ "::" ++ C, (path ++ "::" ++ C) ++ "::" ++ m2, .contains⟩,
      ⟨path, path ++ "::" ++ f, .contains⟩,
      ⟨path, path ++ "::" ++ m1, .contains⟩,
      ⟨path, path ++ "::" ++ m2, .contains⟩]⟩,
    ?_, by simp, by simp, by simp, by simp, by simp⟩
  simp [createGraph, filesLoop, fileStep, moduleImportLoop, symbolImportLoop,
    classLoop, classStep, methodStep, funcLoop, funcStep, addNode, addEdge,
    q1, q2, q3, q4, q5, q6, q7, q8, q9, q10,
    q11, q12, q13, q14, q15, q16, q17, q18, q19, q20, q21]

/-- C2, witness for the amended theorem at the concrete class/method/
function names of `projC2`. -/
theorem claim2_witness :
    ("m1" : String) ≠ "m2" ∧
    ∃ g, createGraph [("c.py", mkFileData projC2 cfgF "/proj"
        [.classDef "A" (.cons (.funcDef "m1" 2 ["self"] .nil)
            (.cons (.funcDef "m2" 4 ["self"] .nil) .nil)),
         .funcDef "f" 6 [] .nil])] = Except.ok g ∧
      (g.nodes.filter (fun nd => nd.group == "files")).length = 1 ∧
      (g.nodes.filter (fun nd => nd.group == "classes")).length = 1 ∧
      (g.nodes.filter (fun nd => nd.group == "methods")).length = 2 ∧
      (g.nodes.filter (fun nd => nd.group == "functions")).length = 3 ∧
      (g.edges.filter (fun e => e.kind == EdgeKind.contains)).length = 6 :=
  ⟨by decide, claim2_node_counts projC2 cfgF "/proj" "c.py" "A" "m1" "m2" "f"
    2 4 6 ["self"] ["self"] [] (by decide) (by decide) (by decide)
    (by decide) (by decide) (by decide) (by decide) (by decide) (by decide)⟩

/-- C3, counterexample: `import b` (retained as local) puts the dotless
entry `"b"` into `imported_names`, which is not a `module.symbol` pair. -/
theorem claim3_counterexample :
    (("a.py", ⟨["b"], ["b"], [], []⟩) : String × FileData) ∈ analyzeDeps projB cfgF ∧
    "b" ∈ (["b"] : List String) ∧ (splitDot "b").length ≠ 2 :=
  ⟨by decide, by decide, by decide⟩

/-- C3, amended: every `imported_names` entry of an analysis result traces
to an import statement of the file's walked tree: either it is a full
dotted alias of a plain `import` (any number of dots, including none), or
it is `firstSeg module ++ "." ++ symbol` for a from-import. -/
theorem claim3_imported_names_forms (p : Project) (cfg : Config) :
    ∀ e ∈ analyzeDeps p cfg, ∀ n ∈ e.2.imported_names,
      ∃ f ∈ scanFiles p cfg, ∃ tree, f.parsed = some tree ∧
        ∃ s ∈ walk tree, stepAdds s n := by
  intro e he n hn
  obtain ⟨f, hf, tree, hp, _, rfl⟩ := analyzeDeps_values p cfg e he
  have hraw : n ∈ (extractImports tree).2 :=
    (mkFileData_subsets p cfg (fileDir p f) tree).2 n hn
  obtain ⟨s, hs, hadd⟩ := mem_extractImports_snd hraw
  exact ⟨f, hf, tree, hp, s, hs, hadd⟩

/-- C3, witness at the `import b` project. -/
theorem claim3_witness :
    (("a.py", ⟨["b"], ["b"], [], []⟩) : String × FileData) ∈ analyzeDeps projB cfgF ∧
    ∃ f ∈ scanFiles projB cfgF, ∃ tree, f.parsed = some tree ∧
      ∃ s ∈ walk tree, stepAdds s "b" :=
  ⟨by decide, claim3_imported_names_forms projB cfgF
    ("a.py", ⟨["b"], ["b"], [], []⟩) (by decide) "b" (by decide)⟩

/-- C4, counterexample: `a.js` is yielded by the scan (readable, matching a
configured extension) yet the result map has no entry at all for it — the
claimed empty-declaration entry does not exist. -/
theorem claim4_counterexample :
    (scanFiles projJs cfgF).map DiskFile.relPath = ["a.js"] ∧
    (scanFiles projJs cfgF).map (fun f => f.parsed.isSome) = [true] ∧
    analyzeDeps projJs cfgF = [] :=
  ⟨rfl, rfl, by decide⟩

/-- C4, amended: the result's keys are exactly the scanned files that end in
`.py` and parse successfully; scanned files with other configured extensions
are dropped from the result entirely (no entry), as are parse failures. -/
theorem claim4_result_keys (p : Project) (cfg : Config)
    (hnd : ((analyzedOf p cfg).map Prod.fst).Nodup) :
    (analyzeDeps p cfg).map Prod.fst =
      ((scanFiles p cfg).filter
        (fun f => strEndsWith (filePath p f) ".py" && f.parsed.isSome)).map
        DiskFile.relPath := by
  rw [analyzeDeps_eq p cfg hnd, analyzedOf_keys]

/-- C4, witness at the single-`.js` project (scanned file, no entry). -/
theorem claim4_witness :
    ((analyzedOf projJs cfgF).map Prod.fst).Nodup ∧
    (analyzeDeps projJs cfgF).map Prod.fst =
      ((scanFiles projJs cfgF).filter
        (fun f => strEndsWith (filePath projJs f) ".py" && f.parsed.isSome)).map
        DiskFile.relPath :=
  ⟨by decide, claim4_result_keys projJs cfgF (by decide)⟩

/-- C5: a run over files where one scanned `.py` file fails to parse keeps
exactly the other files' entries, in scan order, and returns normally. -/
theorem claim5_parse_failure_isolated (p : Project) (cfg : Config)
    (good1 good2 : List DiskFile) (bad : DiskFile)
    (hscan : scanFiles p cfg = good1 ++ bad :: good2)
    (hgood : ∀ f ∈ good1 ++ good2,
      strEndsWith (filePath p f) ".py" = true ∧ f.parsed.isSome = true)
    (hbadparse : bad.parsed = none)
    (hnd : ((analyzedOf p cfg).map Prod.fst).Nodup) :
    analyze p cfg = Except.ok (analyzeDeps p cfg) ∧
    (analyzeDeps p cfg).map Prod.fst = (good1 ++ good2).map DiskFile.relPath := by
  refine ⟨rfl, ?_⟩
  rw [analyzeDeps_eq p cfg hnd, analyzedOf_keys, hscan, List.filter_append,
    List.filter_cons_of_neg (by simp [hbadparse])]
  have h1 : good1.filter
      (fun f => strEndsWith (filePath p f) ".py" && f.parsed.isSome) = good1 :=
    List.filter_eq_self.mpr (fun f hf => by
      obtain ⟨ha, hb⟩ := hgood f (List.mem_append.mpr (Or.inl hf))
      simp [ha, hb])
  have h2 : good2.filter
      (fun f => strEndsWith (filePath p f) ".py" && f.parsed.isSome) = good2 :=
    List.filter_eq_self.mpr (fun f hf => by
      obtain ⟨ha, hb⟩ := hgood f (List.mem_append.mpr (Or.inr hf))
      simp [ha, hb])
  rw [h1, h2, List.map_append]

/-- C5, witness: two good files around one broken file. -/
theorem claim5_witness :
    scanFiles projBad cfgF =
      [⟨"", "a.py", some []⟩] ++ ⟨"", "broken.py", none⟩ :: [⟨"", "b.py", some []⟩] ∧
    analyze projBad cfgF = Except.ok (analyzeDeps projBad cfgF) ∧
    (analyzeDeps projBad cfgF).map Prod.fst =
      ([⟨"", "a.py", some []⟩, ⟨"", "b.py", some []⟩] : List DiskFile).map
        DiskFile.relPath := by
  refine ⟨rfl, ?_⟩
  have h := claim5_parse_failure_isolated projBad cfgF
    [⟨"", "a.py", some []⟩] [⟨"", "b.py", some []⟩] ⟨"", "broken.py", none⟩
    rfl (by
      intro f hf
      rcases List.mem_cons.mp hf with rfl | hf'
      · exact ⟨rfl, rfl⟩
      · rcases List.mem_cons.mp hf' with rfl | hf''
        · exact ⟨rfl, rfl⟩
        · cases hf'')
    rfl (by decide)
  exact h

/-- C6: with `include_external=False`, every `imported_names` entry of every
result entry has its first dotted segment among that entry's `imports` (the
filtering prunes both together). -/
theorem claim6_consistency (p : Project) (cfg : Config)
    (hext : cfg.includeExternal = false) :
    ∀ e ∈ analyzeDeps p cfg, ∀ n ∈ e.2.imported_names,
      firstSeg n ∈ e.2.imports := by
  intro e he n hn
  obtain ⟨f, _, tree, _, _, rfl⟩ := analyzeDeps_values p cfg e he
  exact mkFileData_false_consistent p cfg (fileDir p f) tree hext n hn

/-- C6, witness at the `import b` project. -/
theorem claim6_witness :
    (("a.py", ⟨["b"], ["b"], [], []⟩) : String × FileData) ∈ analyzeDeps projB cfgF ∧
    firstSeg "b" ∈ (["b"] : List String) :=
  ⟨by decide, claim6_consistency projB cfgF rfl
    ("a.py", ⟨["b"], ["b"], [], []⟩) (by decide) "b" (by decide)⟩

/-- One scanned file behaves the same under both `include_external`
settings except for the stored value: skipped by both, or stored under the
same key by both. -/
theorem entryOf_flag_cases (p : Project) (exts : List String) (f : DiskFile) :
    (entryOf p ⟨exts, false⟩ f = none ∧ entryOf p ⟨exts, true⟩ f = none) ∨
    ∃ tree, f.parsed = some tree ∧
      entryOf p ⟨exts, false⟩ f =
        some (f.relPath, mkFileData p ⟨exts, false⟩ (fileDir p f) tree) ∧
      entryOf p ⟨exts, true⟩ f =
        some (f.relPath, mkFileData p ⟨exts, true⟩ (fileDir p f) tree) := by
  unfold entryOf
  by_cases hpy : strEndsWith (filePath p f) ".py"
  · rw [if_pos hpy, if_pos hpy]
    cases hp : f.parsed with
    | none => exact Or.inl ⟨rfl, rfl⟩
    | some tree => exact Or.inr ⟨tree, rfl, rfl, rfl⟩
  · rw [if_neg hpy, if_neg hpy]
    exact Or.inl ⟨rfl, rfl⟩

theorem entryOf_keys_flag (p : Project) (exts : List String) :
    ∀ fs : List DiskFile,
      (fs.filterMap (entryOf p ⟨exts, false⟩)).map Prod.fst =
      (fs.filterMap (entryOf p ⟨exts, true⟩)).map Prod.fst := by
  intro fs
  induction fs with
  | nil => rfl
  | cons f fs ih =>
    rcases entryOf_flag_cases p exts f with ⟨hnF, hnT⟩ | ⟨tree, _, hsF, hsT⟩
    · rw [List.filterMap_cons_none hnF, List.filterMap_cons_none hnT]
      exact ih
    · rw [List.filterMap_cons_some hsF, List.filterMap_cons_some hsT,
        List.map_cons, List.map_cons, ih]

theorem pair_entries (p : Project) (exts : List String) :
    ∀ (fs : List DiskFile) (path : String) (dF dT : FileData),
      ((fs.filterMap (entryOf p ⟨exts, false⟩)).map Prod.fst).Nodup →
      (path, dF) ∈ fs.filterMap (entryOf p ⟨exts, false⟩) →
      (path, dT) ∈ fs.filterMap (entryOf p ⟨exts, true⟩) →
      ∃ f tree, f.parsed = some tree ∧
        dF = mkFileData p ⟨exts, false⟩ (fileDir p f) tree ∧
        dT = mkFileData p ⟨exts, true⟩ (fileDir p f) tree := by
  intro fs
  induction fs with
  | nil =>
    intro path dF dT _ hF _
    cases hF
  | cons f fs ih =>
    intro path dF dT hnd hF hT
    rcases entryOf_flag_cases p exts f with ⟨hnF, hnT⟩ | ⟨tree, hp, hsF, hsT⟩
    · rw [List.filterMap_cons_none hnF] at hF hnd
      rw [List.filterMap_cons_none hnT] at hT
      exact ih path dF dT hnd hF hT
    · rw [List.filterMap_cons_some hsF] at hF hnd
      rw [List.filterMap_cons_some hsT] at hT
      rw [List.map_cons] at hnd
      have hnotin : f.relPath ∉ (fs.filterMap (entryOf p ⟨exts, false⟩)).map Prod.fst :=
        (List.nodup_cons.mp hnd).1
      rcases List.mem_cons.mp hF with heF | hF'
      · rcases List.mem_cons.mp hT with heT | hT'
        · have hdF : dF = mkFileData p ⟨exts, false⟩ (fileDir p f) tree :=
            congrArg Prod.snd heF
          have hdT : dT = mkFileData p ⟨exts, true⟩ (fileDir p f) tree :=
            congrArg Prod.snd heT
          exact ⟨f, tree, hp, hdF, hdT⟩
        · exfalso
          have hpath : path = f.relPath := congrArg Prod.fst heF
          have hmem : path ∈ (fs.filterMap (entryOf p ⟨exts, true⟩)).map Prod.fst :=
            List.mem_map.mpr ⟨(path, dT), hT', rfl⟩
          rw [← entryOf_keys_flag p exts fs] at hmem
          exact hnotin (hpath ▸ hmem)
      · rcases List.mem_cons.mp hT with heT | hT'
        · exfalso
          have hpath : path = f.relPath := congrArg Prod.fst heT
          have hmem : path ∈ (fs.filterMap (entryOf p ⟨exts, false⟩)).map Prod.fst :=
            List.mem_map.mpr ⟨(path, dF), hF', rfl⟩
          exact hnotin (hpath ▸ hmem)
        · exact ih path dF dT (List.nodup_cons.mp hnd).2 hF' hT'

/-- C7: for the same project and filesystem, a file's entry computed with
`include_external=False` has `imports` and `imported_names` included in the
corresponding sets computed with `include_external=True`. -/
theorem claim7_external_monotonicity (p : Project) (exts : List String)
    (path : String) (dataF dataT : FileData)
    (hnd : ((analyzedOf p ⟨exts, false⟩).map Prod.fst).Nodup)
    (hF : (path, dataF) ∈ analyzeDeps p ⟨exts, false⟩)
    (hT : (path, dataT) ∈ analyzeDeps p ⟨exts, true⟩) :
    (∀ x ∈ dataF.imports, x ∈ dataT.imports) ∧
    (∀ n ∈ dataF.imported_names, n ∈ dataT.imported_names) := by
  have hkeys : (analyzedOf p ⟨exts, false⟩).map Prod.fst =
      (analyzedOf p ⟨exts, true⟩).map Prod.fst :=
    entryOf_keys_flag p exts (scanFiles p ⟨exts, false⟩)
  have hndT : ((analyzedOf p ⟨exts, true⟩).map Prod.fst).Nodup := hkeys ▸ hnd
  rw [analyzeDeps_eq p ⟨exts, false⟩ hnd] at hF
  rw [analyzeDeps_eq p ⟨exts, true⟩ hndT] at hT
  obtain ⟨f, tree, _, hdF, hdT⟩ :=
    pair_entries p exts (scanFiles p ⟨exts, false⟩) path dataF dataT hnd hF hT
  subst hdF
  subst hdT
  exact ⟨(mkFileData_subsets p ⟨exts, false⟩ (fileDir p f) tree).1,
    (mkFileData_subsets p ⟨exts, false⟩ (fileDir p f) tree).2⟩

/-- C7, witness: the `import b` project, whose sets coincide under both
settings because `b` is local. -/
theorem claim7_witness :
    ((analyzedOf projB ⟨[".py", ".js", ".html", ".css"], false⟩).map Prod.fst).Nodup ∧
    (∀ x ∈ (["b"] : List String), x ∈ (["b"] : List String)) ∧
    (∀ n ∈ (["b"] : List String), n ∈ (["b"] : List String)) := by
  refine ⟨by decide, ?_, ?_⟩
  · exact (claim7_external_monotonicity projB [".py", ".js", ".html", ".css"]
      "a.py" ⟨["b"], ["b"], [], []⟩ ⟨["b"], ["b"], [], []⟩
      (by decide) (by decide) (by decide)).1
  · exact (claim7_external_monotonicity projB [".py", ".js", ".html", ".css"]
      "a.py" ⟨["b"], ["b"], [], []⟩ ⟨["b"], ["b"], [], []⟩
      (by decide) (by decide) (by decide)).2

/-- C8: `a.py` holding only `from os import path` with no local `os`:
filtering empties both sets; with externals included they are `["os"]` and
`["os.path"]`. -/
theorem claim8_from_os_import_path :
    analyzeDeps projOs cfgF = [("a.py", ⟨[], [], [], []⟩)] ∧
    analyzeDeps projOs cfgT = [("a.py", ⟨["os"], ["os.path"], [], []⟩)] :=
  ⟨by decide, by decide⟩

/-- C9: when the dict keys are unique and every `imported_names` entry
unpacks, `create_graph` completes, and for each entry the module-import
edges leaving its file node are exactly one edge to the first key (in
insertion order) whose basename is `m + ".py"`, per import `m` for which
such a key exists — a basename miss adds nothing and fails nothing. -/
theorem claim9_module_import_edges (deps : Dependencies)
    (hnd : (deps.map Prod.fst).Nodup)
    (hwf : ∀ e ∈ deps, wfNames e.2) :
    ∃ g, createGraph deps = Except.ok g ∧
      ∀ path data, (path, data) ∈ deps →
        g.edges.filter (isModuleEdgeFrom path) =
          data.imports.filterMap (fun m =>
            (findTarget deps m).map (fun t =>
              GEdge.mk path t EdgeKind.importsModule)) := by
  obtain ⟨g, hok, hedges⟩ := createGraph_ok deps hwf
  refine ⟨g, hok, ?_⟩
  intro path data hmem
  rw [hedges]
  exact filter_allEdges deps deps path data hnd hmem

/-- C9, witness: `a.py` imports `b` (edge to `b.py`) and `zzz` (no matching
basename: silently dropped); the build completes. -/
theorem claim9_witness :
    (([("a.py", ⟨["b", "zzz"], [], [], []⟩), ("b.py", ⟨[], [], [], []⟩)] :
        Dependencies).map Prod.fst).Nodup ∧
    ∃ g, createGraph
        [("a.py", ⟨["b", "zzz"], [], [], []⟩), ("b.py", ⟨[], [], [], []⟩)] =
        Except.ok g ∧
      g.edges.filter (isModuleEdgeFrom "a.py") =
        [GEdge.mk "a.py" "b.py" EdgeKind.importsModule] := by
  refine ⟨by decide, ?_⟩
  obtain ⟨g, hok, hchar⟩ := claim9_module_import_edges
    [("a.py", ⟨["b", "zzz"], [], [], []⟩), ("b.py", ⟨[], [], [], []⟩)]
    (by decide) (by decide)
  refine ⟨g, hok, ?_⟩
  rw [hchar "a.py" ⟨["b", "zzz"], [], [], []⟩ (by decide)]
  decide

/-- C10: any dependency dict holding an `imported_names` entry that does not
split into exactly two dot-parts makes `create_graph` raise `ValueError`
and abort — the analyzer produces such entries for every retained plain
`import` statement. -/
theorem claim10_unpack_valueerror (deps : Dependencies) (path : String)
    (data : FileData) (n : String) (hmem : (path, data) ∈ deps)
    (hn : n ∈ data.imported_names) (hbad : (splitDot n).length ≠ 2) :
    ∃ e, createGraph deps = Except.error e :=
  createGraph_err deps path data n hmem hn hbad

/-- C10, witness: the analyzer's own output for `import b` (entry `"b"`)
crashes the visualizer. -/
theorem claim10_witness :
    (("a.py", ⟨["b"], ["b"], [], []⟩) : String × FileData) ∈ analyzeDeps projB cfgF ∧
    ∃ e, createGraph (analyzeDeps projB cfgF) = Except.error e :=
  ⟨by decide, claim10_unpack_valueerror (analyzeDeps projB cfgF) "a.py"
    ⟨["b"], ["b"], [], []⟩ "b" (by decide) (by decide) (by decide)⟩

end CodeGraph
